import Mathlib

/-!
Verification of the gozipstreamer archive-assembly core.

This file shallowly embeds the Go sources:
  zipstreamer/file_entry.go      (NewFileEntry and its path/URL validation)
  zipstreamer/zip_descriptor.go  (ZipDescriptor, EscapedSuggestedFilename,
                                  UnmarshalJsonZipDescriptor)
  zipstreamer/zip_streamer.go    (ZipStream.StreamAllFiles)
  main.go / unnamed parts        (calculateZipSize)
together with the pieces of the Go standard library those sources lean on:
path.Clean, path.IsAbs, strings.HasPrefix / strings.HasSuffix and the scheme
extraction of net/url.Parse.  Machine integers are modelled as Int / Nat
(sizes in the repository are int64 and stay far below overflow on every
input considered here), byte strings as Lean String / List Char (Go indexes
bytes; all separator and scheme characters are ASCII, so rune-level
processing coincides with Go's byte-level processing on them).
-/

deriving instance DecidableEq for Except

namespace GoZipStreamer

/-- Embedding of Go strings.HasPrefix: s begins with the given pattern
(byte-for-byte; on ASCII patterns this is exactly Go's behaviour). -/
def strHasPre (s pat : String) : Bool :=
  pat.data.isPrefixOf s.data

/-- Embedding of Go strings.HasSuffix: s ends with the given pattern. -/
def strHasSuf (s pat : String) : Bool :=
  pat.data.isSuffixOf s.data

/-- Embedding of the backtracking step of Go path.Clean's ".." handling
(path/path.go: "out.w--; for out.w > dotdot && out.index(out.w) != '/'
\x7b out.w-- \x7d").  The output buffer is kept in reverse, so removing
trailing bytes is head removal: pop one char, then keep popping while the
char just popped is not a slash and more than dotdot chars remain. -/
def popSegRev (dotdot : Nat) : List Char → List Char
  | [] => []
  | c :: rest =>
    if c = '/' then rest
    else if rest.length ≤ dotdot then rest
    else popSegRev dotdot rest

/-- Embedding of the main loop of Go path.Clean (path/path.go, Clean).
The output buffer rout is kept in reverse; dotdot marks how many chars at
the bottom of the buffer are protected from ".." backtracking, exactly as
in the Go code.  The first Nat is fuel; the Go loop advances its read index
by at least one byte per iteration, so fuel = length of the remaining input
makes the fuelled function compute the same result while being structurally
recursive (the fuel-exhaustion arm is unreachable from pathClean). -/
def cleanLoopF (rooted : Bool) : Nat → List Char → Nat → List Char → List Char
  | 0, _, _, rout => rout
  | _ + 1, [], _, rout => rout
  | fuel + 1, c :: rest, dotdot, rout =>
    if c = '/' then
      cleanLoopF rooted fuel rest dotdot rout
    else if c = '.' ∧ (rest = [] ∨ rest.head? = some '/') then
      cleanLoopF rooted fuel rest dotdot rout
    else if c = '.' ∧ rest.head? = some '.' ∧
        (rest.tail = [] ∨ rest.tail.head? = some '/') then
      if dotdot < rout.length then
        cleanLoopF rooted fuel rest.tail dotdot (popSegRev dotdot rout)
      else if rooted = false then
        cleanLoopF rooted fuel rest.tail
          ('.' :: '.' :: (if 0 < rout.length then '/' :: rout else rout)).length
          ('.' :: '.' :: (if 0 < rout.length then '/' :: rout else rout))
      else
        cleanLoopF rooted fuel rest.tail dotdot rout
    else
      cleanLoopF rooted fuel
        (rest.dropWhile (fun x => x ≠ '/'))
        dotdot
        ((c :: rest.takeWhile (fun x => x ≠ '/')).reverse ++
          (if (rooted ∧ rout.length ≠ 1) ∨ (rooted = false ∧ rout.length ≠ 0)
           then '/' :: rout else rout))

/-- Embedding of Go path.Clean (path/path.go).  A rooted path starts its
buffer with "/" and read index 1, dotdot = 1; the empty result is turned
into ".".  The buffer is reversed back into a String at the end. -/
def pathClean (p : String) : String :=
  if p = "" then "."
  else if p.data.head? = some '/' then
    if cleanLoopF true p.data.tail.length p.data.tail 1 ['/'] = [] then "."
    else String.mk (cleanLoopF true p.data.tail.length p.data.tail 1 ['/']).reverse
  else
    if cleanLoopF false p.data.length p.data 0 [] = [] then "."
    else String.mk (cleanLoopF false p.data.length p.data 0 []).reverse

/-- Embedding of Go path.IsAbs: a path is absolute when it is nonempty and
starts with a slash. -/
def pathIsAbs (p : String) : Bool :=
  match p.data with
  | [] => false
  | c :: _ => c = '/'

/-- Embedding of getscheme from net/url (url.go): scan the raw URL; ASCII
letters may continue a scheme, digits and +-. may continue but not start
one, a colon terminates it (an immediate colon is the
"missing protocol scheme" error), and any other byte means the URL has no
scheme.  raw is the whole input, kept for the no-scheme results. -/
def getschemeLoop (raw : List Char) : List Char → Nat → Except String (String × String)
  | [], _ => .ok ("", String.mk raw)
  | c :: rest, i =>
    if ('a' ≤ c ∧ c ≤ 'z') ∨ ('A' ≤ c ∧ c ≤ 'Z') then
      getschemeLoop raw rest (i + 1)
    else if ('0' ≤ c ∧ c ≤ '9') ∨ c = '+' ∨ c = '-' ∨ c = '.' then
      if i = 0 then .ok ("", String.mk raw)
      else getschemeLoop raw rest (i + 1)
    else if c = ':' then
      if i = 0 then .error "missing protocol scheme"
      else .ok (String.mk (raw.take i), String.mk (raw.drop (i + 1)))
    else .ok ("", String.mk raw)

/-- Embedding of getscheme from net/url over a String. -/
def getscheme (s : String) : Except String (String × String) :=
  getschemeLoop s.data s.data 0

/-- Embedding of Go strings.ToLower as applied to a scheme string: getscheme
only ever returns schemes built from ASCII letters, digits and +-., on which
Go's Unicode lowering coincides with ASCII lowering. -/
def toLowerGo (s : String) : String :=
  String.mk (s.data.map fun c =>
    if 'A' ≤ c ∧ c ≤ 'Z' then Char.ofNat (c.toNat + 32) else c)

/-- Result of url.Parse as consumed by file_entry.go: only the
(lowercased) scheme is inspected there, the remainder is carried opaquely. -/
structure GoURL where
  scheme : String
  rest : String
deriving DecidableEq, Repr

/-- Model of net/url's Parse restricted to what NewFileEntry consults:
scheme extraction via getscheme followed by lowercasing of the scheme
(url.go, parse).  Deeper validation that Parse performs on the remainder
(host characters, percent escapes, port syntax) is not modelled; NewFileEntry
only reads the Scheme field and the error/success outcome, and every
concrete URL used in this file is accepted identically by both. -/
def urlParse (raw : String) : Except String GoURL :=
  match getscheme raw with
  | .error e => .error e
  | .ok (sch, r) => .ok ⟨toLowerGo sch, r⟩

/-- Embedding of the FileEntry struct of zipstreamer/file_entry.go:
an optional fetch URL (none for the directory-marker arm) and the stored
zip path. -/
structure FileEntry where
  url : Option GoURL
  zipPath : String
deriving DecidableEq, Repr

/-- Embedding of NewFileEntry (zipstreamer/file_entry.go).  The process-wide
ZS_URL_PREFIX environment value read by os.Getenv is passed explicitly as
urlPre (Getenv returns "" when the variable is unset).  The steps mirror the
Go source in order: clean the zip path, reject absolute paths, accept
trailing-slash paths as URL-less directory entries, then parse the URL,
check its scheme and check the allow-list prefix. -/
def NewFileEntry (urlPre urlString zipPath : String) : Except String FileEntry :=
  if pathIsAbs (pathClean zipPath) then .error "zip path must be relative"
  else if strHasSuf (pathClean zipPath) "/" then .ok ⟨none, pathClean zipPath⟩
  else
    match urlParse urlString with
    | .error e => .error e
    | .ok u =>
      if u.scheme ≠ "http" ∧ u.scheme ≠ "https" then
        .error "url must be a http url"
      else if (strHasPre urlString urlPre) = false then
        .error "URL not allowed"
      else .ok ⟨some u, pathClean zipPath⟩

/-- Embedding of the accumulation loop of calculateZipSize (main.go): for
each entry add 30 + filename byte length to the local-header total, the
entry's size from the fileSizeMap to the file-data total and 46 + filename
byte length to the central-directory total.  The process-global
fileSizeMap (zipPath -> int64, Go map lookup yielding 0 on a missing key)
is passed explicitly as sizeMap.  The duck-typure probe the Go code makes
for a ZipPath accessor always succeeds on *FileEntry, so both of its arms
read the same field. -/
def calcLoop (sizeMap : String → Int) :
    List FileEntry → Int → Int → Int → Int × Int × Int
  | [], lh, fd, cd => (lh, fd, cd)
  | f :: rest, lh, fd, cd =>
    calcLoop sizeMap rest
      (lh + (30 + (f.zipPath.utf8ByteSize : Int)))
      (fd + sizeMap f.zipPath)
      (cd + (46 + (f.zipPath.utf8ByteSize : Int)))

/-- Embedding of calculateZipSize (main.go): returns
(total, localHeaders, fileData, centralDir) with
total = localHeaders + fileData + centralDir + 22, using the constants
localHeaderSize = 30, centralDirSize = 46, eocdSize = 22. -/
def calculateZipSize (files : List FileEntry) (sizeMap : String → Int) :
    Int × Int × Int × Int :=
  let t := calcLoop sizeMap files 0 0 0
  (t.1 + t.2.1 + t.2.2 + 22, t.1, t.2.1, t.2.2)

/-- Outcome of the http.Get a file member triggers in StreamAllFiles:
either a transport-level error or a response with a status code and a body
(bytes abstracted as a list of naturals). -/
inductive FetchResult where
  | transportError
  | response (status : Nat) (body : List Nat)
deriving DecidableEq, Repr

/-- Observable actions StreamAllFiles performs on the archive writer, in
order: a directory header (CreateHeader on a slash-terminated name), a file
local header (CreateHeader on the member's zipPath), the copied body bytes,
and the finalization that zipWriter.Close performs (central directory plus
end-of-central-directory). -/
inductive ZipEvent where
  | dirHeader (name : String)
  | fileHeader (name : String)
  | fileBody (name : String) (body : List Nat)
  | finalize
deriving DecidableEq, Repr

/-- Embedding of the member loop of ZipStream.StreamAllFiles
(zipstreamer/zip_streamer.go).  The HTTP client is the explicit oracle
fetch (keyed by the member's URL, as http.Get(entry.Url().String())).
A nil-URL entry gets a directory header with a slash appended when missing
and counts as a success; a file entry is skipped when the fetch transport
fails or the status is not http.StatusOK (200), and otherwise contributes
its local header and body and counts as a success.  The zip writer and the
destination sink are modelled as the pure event list evs, so the
writer-error aborts of the Go code (CreateHeader / io.Copy failures, which
can only arise from the external sink) cannot fire; flushes change no
observable state.  succ is the Go success counter. -/
def streamLoop (fetch : GoURL → FetchResult) :
    List FileEntry → List ZipEvent → Nat → List ZipEvent × Nat
  | [], evs, succ => (evs, succ)
  | e :: rest, evs, succ =>
    match e.url with
    | none =>
      streamLoop fetch rest
        (evs ++ [.dirHeader (if strHasSuf e.zipPath "/" then e.zipPath
                             else e.zipPath ++ "/")])
        (succ + 1)
    | some u =>
      match fetch u with
      | .transportError => streamLoop fetch rest evs succ
      | .response status body =>
        if status ≠ 200 then streamLoop fetch rest evs succ
        else
          streamLoop fetch rest
            (evs ++ [.fileHeader e.zipPath, .fileBody e.zipPath body])
            (succ + 1)

/-- Embedding of ZipStream.StreamAllFiles (zipstreamer/zip_streamer.go):
run the member loop, close the writer (the finalize event), and return the
all-failed error exactly when the success counter is still zero. -/
def StreamAllFiles (fetch : GoURL → FetchResult) (entries : List FileEntry) :
    List ZipEvent × Except String Unit :=
  ((streamLoop fetch entries [] 0).1 ++ [.finalize],
   if (streamLoop fetch entries [] 0).2 = 0 then
     .error "empty file - all files and folders failed"
   else .ok ())

/-- Embedding of the jsonZipEntry struct of zipstreamer/zip_descriptor.go. -/
structure JsonZipEntry where
  url : String
  zipPath : String
deriving DecidableEq, Repr

/-- Embedding of the jsonZipPayload struct of zipstreamer/zip_descriptor.go. -/
structure JsonZipPayload where
  files : List JsonZipEntry
  suggestedFilename : String
deriving DecidableEq, Repr

/-- Embedding of the ZipDescriptor struct of zipstreamer/zip_descriptor.go. -/
structure ZipDescriptor where
  suggestedFilenameRaw : String
  files : List FileEntry
deriving DecidableEq, Repr

/-- Embedding of the entry loop of UnmarshalJsonZipDescriptor: skip an entry
whose URL is empty unless its zipPath ends in a slash, hand the survivors to
NewFileEntry, and keep (in order) exactly the constructions that succeed. -/
def buildFiles (urlPre : String) : List JsonZipEntry → List FileEntry
  | [] => []
  | item :: rest =>
    if item.url = "" ∧ (strHasSuf item.zipPath "/") = false then
      buildFiles urlPre rest
    else
      match NewFileEntry urlPre item.url item.zipPath with
      | .ok fe => fe :: buildFiles urlPre rest
      | .error _ => buildFiles urlPre rest

/-- Embedding of UnmarshalJsonZipDescriptor (zipstreamer/zip_descriptor.go).
The json.Unmarshal call is external; its outcome is the Option argument:
none models a top-level JSON parse failure (returned as a hard error),
some payload models a structurally valid manifest. -/
def UnmarshalJsonZipDescriptor (urlPre : String)
    (payload : Option JsonZipPayload) : Except String ZipDescriptor :=
  match payload with
  | none => .error "json unmarshal error"
  | some parsed =>
    .ok ⟨parsed.suggestedFilename, buildFiles urlPre parsed.files⟩

/-- Embedding of the rune-filtering loop of EscapedSuggestedFilename
(zipstreamer/zip_descriptor.go): keep the runes r with 31 < r < 127 other
than the double quote. -/
def escapeFilename (raw : String) : String :=
  String.mk (raw.data.filter fun r => decide (31 < r.toNat ∧ r.toNat < 127 ∧ r ≠ '"'))

/-- Embedding of ZipDescriptor.EscapedSuggestedFilename
(zipstreamer/zip_descriptor.go): keep the runes with codepoint above 31 and
below 127 other than the double quote (the escapeFilename loop above); if
the result is neither empty nor the literal ".zip", return it with a ".zip"
suffix appended when missing, and otherwise fall back to "archive.zip". -/
def EscapedSuggestedFilename (zd : ZipDescriptor) : String :=
  if escapeFilename zd.suggestedFilenameRaw ≠ "" ∧
      escapeFilename zd.suggestedFilenameRaw ≠ ".zip" then
    if strHasSuf (escapeFilename zd.suggestedFilenameRaw) ".zip" then
      escapeFilename zd.suggestedFilenameRaw
    else escapeFilename zd.suggestedFilenameRaw ++ ".zip"
  else "archive.zip"

/-- Byte count that the Go archive/zip writer emits for the StreamAllFiles
loop under the stored method when every fetch succeeds with the declared
sizes.  This models the standard library behaviour the repository's
streamer invokes (archive/zip/writer.go, not part of this repository):
zip_streamer.go fills FileHeader.Modified (= time.Now()), so CreateHeader
appends the 9-byte extended-timestamp extra field (id 0x5455) to the
header, which is written in both the local header and the central
directory record; every non-directory entry created through CreateHeader
is streamed with flag bit 3 set and is followed by a 16-byte data
descriptor (signature, crc32 and both sizes); the fixed parts are 30 bytes
for a local header, 46 for a central directory record and 22 for the
end-of-central-directory record, with the filename written in both
headers.  Hence each file member of name length L and size S occupies
(30 + L + 9) + S + 16 bytes in the local area and 46 + L + 9 bytes of
central directory. -/
def storedStreamSize (files : List FileEntry) (sizeMap : String → Int) : Int :=
  (files.map fun f =>
      (30 + (f.zipPath.utf8ByteSize : Int) + 9) + sizeMap f.zipPath + 16 +
      (46 + (f.zipPath.utf8ByteSize : Int) + 9)).sum + 22

/-- Events a single member contributes to the StreamAllFiles output,
read off from the member loop of zip_streamer.go: a directory header for a
nil-URL entry, nothing for a skipped fetch (transport failure or status
other than 200), and local header plus body for a 200 response. -/
def perEntry (fetch : GoURL → FetchResult) (e : FileEntry) : List ZipEvent :=
  match e.url with
  | none => [.dirHeader (if strHasSuf e.zipPath "/" then e.zipPath
                         else e.zipPath ++ "/")]
  | some u =>
    match fetch u with
    | .transportError => []
    | .response status body =>
      if status ≠ 200 then []
      else [.fileHeader e.zipPath, .fileBody e.zipPath body]

/-- Whether a single member increments the success counter of
StreamAllFiles: directory entries always do, file entries exactly when the
fetch returns status 200. -/
def entrySucc (fetch : GoURL → FetchResult) (e : FileEntry) : Bool :=
  match e.url with
  | none => true
  | some u =>
    match fetch u with
    | .transportError => false
    | .response status _ => status = 200

/-- Concatenation of the per-member event lists over a member list. -/
def eventsOf (fetch : GoURL → FetchResult) : List FileEntry → List ZipEvent
  | [] => []
  | e :: rest => perEntry fetch e ++ eventsOf fetch rest

/-- Number of members of a list that StreamAllFiles counts as successes. -/
def succCount (fetch : GoURL → FetchResult) : List FileEntry → Nat
  | [] => 0
  | e :: rest => (if entrySucc fetch e then 1 else 0) + succCount fetch rest

/-- Outcome of one manifest entry in the UnmarshalJsonZipDescriptor loop:
none when the entry is pre-skipped (empty URL, path not slash-terminated)
or when NewFileEntry rejects it, and the constructed member otherwise. -/
def entryMember (urlPre : String) (item : JsonZipEntry) : Option FileEntry :=
  if item.url = "" ∧ (strHasSuf item.zipPath "/") = false then none
  else (NewFileEntry urlPre item.url item.zipPath).toOption

/-- Local-header byte total as the spec words it: the sum over members of
30 plus the filename byte length. -/
def specLocalHeaderBytes : List FileEntry → Int
  | [] => 0
  | f :: rest => (30 + (f.zipPath.utf8ByteSize : Int)) + specLocalHeaderBytes rest

/-- File-data byte total as the spec words it: the sum over members of the
size carried for the member. -/
def specFileDataBytes (sizeMap : String → Int) : List FileEntry → Int
  | [] => 0
  | f :: rest => sizeMap f.zipPath + specFileDataBytes sizeMap rest

/-- Central-directory byte total as the spec words it: the sum over members
of 46 plus the filename byte length. -/
def specCentralDirBytes : List FileEntry → Int
  | [] => 0
  | f :: rest => (46 + (f.zipPath.utf8ByteSize : Int)) + specCentralDirBytes rest

/-- Filename sanitization as the spec words it: filter the raw name to the
characters with codepoints 32-126 excluding the double quote, return
"archive.zip" when the filtered string is empty or exactly ".zip", and
otherwise append ".zip" unless the filtered string already ends in it. -/
def specEscapedFilename (raw : String) : String :=
  if String.mk (raw.data.filter fun c =>
      decide (32 ≤ c.toNat ∧ c.toNat ≤ 126 ∧ c ≠ '"')) = "" ∨
     String.mk (raw.data.filter fun c =>
      decide (32 ≤ c.toNat ∧ c.toNat ≤ 126 ∧ c ≠ '"')) = ".zip" then
    "archive.zip"
  else if strHasSuf (String.mk (raw.data.filter fun c =>
      decide (32 ≤ c.toNat ∧ c.toNat ≤ 126 ∧ c ≠ '"'))) ".zip" then
    String.mk (raw.data.filter fun c =>
      decide (32 ≤ c.toNat ∧ c.toNat ≤ 126 ∧ c ≠ '"'))
  else
    String.mk (raw.data.filter fun c =>
      decide (32 ≤ c.toNat ∧ c.toNat ≤ 126 ∧ c ≠ '"')) ++ ".zip"

/-- Invariant piece for the pathClean buffer: no two adjacent slashes
anywhere in the list. -/
def NoTwoSlash : List Char → Prop
  | c :: c' :: rest => ¬(c = '/' ∧ c' = '/') ∧ NoTwoSlash (c' :: rest)
  | _ => True

/-- Invariant piece for the pathClean buffer: the reversed buffer starts
with a slash only when it is exactly the root buffer, i.e. the cleaned
output ends in a slash only when the whole output is "/". -/
def HeadOK (l : List Char) : Prop := l.head? = some '/' → l = ['/']

/-- Invariant piece for the pathClean buffer: the dotdot-protected bottom
block of the reversed buffer is empty, the one-char rooted block, or led
(from the top) by a dot placed there by a ".." append. -/
def DotBlock (dotdot : Nat) (l : List Char) : Prop :=
  dotdot = 0 ∨ dotdot = 1 ∨
    (2 ≤ dotdot ∧ (l.drop (l.length - dotdot)).head? = some '.')

/-- Full invariant tying rooted, dotdot and the reversed buffer of
cleanLoopF together. -/
def CleanInv (rooted : Bool) (dotdot : Nat) (rout : List Char) : Prop :=
  HeadOK rout ∧ NoTwoSlash rout ∧ dotdot ≤ rout.length ∧ DotBlock dotdot rout ∧
  (rooted = true → dotdot = 1) ∧ (rooted = false → dotdot = 0 ∨ 2 ≤ dotdot) ∧
  (rooted = false → rout.getLast? ≠ some '/')

theorem noTwoSlash_nil : NoTwoSlash [] := trivial

theorem noTwoSlash_single (c : Char) : NoTwoSlash [c] := trivial

theorem noTwoSlash_cons_cons {c c' : Char} {t : List Char} :
    NoTwoSlash (c :: c' :: t) ↔ ¬(c = '/' ∧ c' = '/') ∧ NoTwoSlash (c' :: t) :=
  Iff.rfl

theorem noTwoSlash_tail {c : Char} {t : List Char}
    (h : NoTwoSlash (c :: t)) : NoTwoSlash t := by
  cases t with
  | nil => trivial
  | cons c' t' => exact h.2

theorem noTwoSlash_append {l m : List Char}
    (hl : ∀ x ∈ l, x ≠ '/') (hm : NoTwoSlash m) : NoTwoSlash (l ++ m) := by
  induction l with
  | nil => simpa using hm
  | cons c t ih =>
    have ht : ∀ x ∈ t, x ≠ '/' := fun x hx => hl x (List.mem_cons_of_mem c hx)
    have hc : c ≠ '/' := hl c (List.mem_cons_self c t)
    have htail : NoTwoSlash (t ++ m) := ih ht
    rw [List.cons_append]
    cases he : t ++ m with
    | nil => exact trivial
    | cons y ys =>
      rw [noTwoSlash_cons_cons]
      exact ⟨fun hp => hc hp.1, he ▸ htail⟩

theorem noTwoSlash_cons_slash {rout : List Char}
    (h2 : NoTwoSlash rout) (hh : rout.head? ≠ some '/') :
    NoTwoSlash ('/' :: rout) := by
  cases rout with
  | nil => exact trivial
  | cons y ys =>
    rw [noTwoSlash_cons_cons]
    refine ⟨fun hp => hh ?_, h2⟩
    rw [List.head?_cons, hp.2]

theorem drop_bottom_append (xs m : List Char) (dd : Nat) (h : dd ≤ m.length) :
    (xs ++ m).drop ((xs ++ m).length - dd) = m.drop (m.length - dd) := by
  induction xs with
  | nil => simp
  | cons x t ih =>
    simp only [List.cons_append]
    have harith : (x :: (t ++ m)).length - dd = ((t ++ m).length - dd) + 1 := by
      simp only [List.length_cons, List.length_append]
      omega
    rw [harith, List.drop_succ_cons, ih]

theorem getLast?_append_right (xs : List Char) {m : List Char} (h : m ≠ []) :
    (xs ++ m).getLast? = m.getLast? := by
  rw [← List.head?_reverse, ← List.head?_reverse, List.reverse_append]
  cases he : m.reverse with
  | nil => exact absurd (List.reverse_eq_nil_iff.mp he) h
  | cons y ys => simp

theorem dotBlock_tail {c : Char} {t : List Char} {dd : Nat}
    (h : DotBlock dd (c :: t)) (hle : dd ≤ t.length) : DotBlock dd t := by
  rcases h with h0 | h1 | ⟨h2, hblk⟩
  · exact Or.inl h0
  · exact Or.inr (Or.inl h1)
  · refine Or.inr (Or.inr ⟨h2, ?_⟩)
    have harith : (c :: t).length - dd = (t.length - dd) + 1 := by
      simp only [List.length_cons]; omega
    rw [harith, List.drop_succ_cons] at hblk
    exact hblk

theorem popSegRev_inv : ∀ (r : List Char) (dd : Nat), dd < r.length →
    NoTwoSlash r → DotBlock dd r →
    dd ≤ (popSegRev dd r).length ∧ NoTwoSlash (popSegRev dd r) ∧
    DotBlock dd (popSegRev dd r) ∧ HeadOK (popSegRev dd r) ∧
    (popSegRev dd r = [] ∨ (popSegRev dd r).getLast? = r.getLast?) := by
  intro r
  induction r with
  | nil => intro dd hlt; exact absurd hlt (by simp)
  | cons c rest ih =>
    intro dd hlt h2 hblk
    have hle : dd ≤ rest.length := by
      simp only [List.length_cons] at hlt; omega
    by_cases hc : c = '/'
    · rw [popSegRev, if_pos hc]
      refine ⟨hle, noTwoSlash_tail h2, dotBlock_tail hblk hle, ?_, ?_⟩
      · intro hh
        cases rest with
        | nil => simp at hh
        | cons y ys =>
          rw [List.head?_cons, Option.some_inj] at hh
          rw [noTwoSlash_cons_cons] at h2
          exact absurd ⟨hc, hh⟩ h2.1
      · cases hrest : rest with
        | nil => exact Or.inl rfl
        | cons y ys => exact Or.inr List.getLast?_cons_cons.symm
    · by_cases hsmall : rest.length ≤ dd
      · have hdd : rest.length = dd := le_antisymm hsmall hle
        rw [popSegRev, if_neg hc, if_pos hsmall]
        have hdot : 2 ≤ dd → rest.head? = some '.' := by
          intro h2'
          rcases hblk with h0 | h1 | ⟨_, hb⟩
          · omega
          · omega
          · have harith : (c :: rest).length - dd = 1 := by
              simp only [List.length_cons]; omega
            rw [harith, List.drop_one, List.tail_cons] at hb
            exact hb
        have hblk' : DotBlock dd rest := by
          rcases hblk with h0 | h1 | ⟨h2', _⟩
          · exact Or.inl h0
          · exact Or.inr (Or.inl h1)
          · refine Or.inr (Or.inr ⟨h2', ?_⟩)
            have hz : rest.length - dd = 0 := by omega
            rw [hz, List.drop_zero]
            exact hdot h2'
        refine ⟨le_of_eq hdd.symm, noTwoSlash_tail h2, hblk', ?_, ?_⟩
        · intro hh
          rcases hblk with h0 | h1 | ⟨h2', _⟩
          · rw [h0] at hdd
            cases rest with
            | nil => simp at hh
            | cons y ys => simp at hdd
          · rw [h1] at hdd
            obtain ⟨a, ha⟩ := List.length_eq_one.mp hdd
            rw [ha] at hh ⊢
            rw [List.head?_cons, Option.some_inj] at hh
            rw [hh]
          · have := hdot h2'
            rw [this, Option.some_inj] at hh
            exact absurd hh (by decide)
        · cases hrest : rest with
          | nil => exact Or.inl rfl
          | cons y ys => exact Or.inr List.getLast?_cons_cons.symm
      · have hlt' : dd < rest.length := Nat.lt_of_not_le hsmall
        rw [popSegRev, if_neg hc, if_neg hsmall]
        obtain ⟨ih1, ih2, ih3, ih4, ih5⟩ :=
          ih dd hlt' (noTwoSlash_tail h2) (dotBlock_tail hblk hle)
        refine ⟨ih1, ih2, ih3, ih4, ?_⟩
        rcases ih5 with h | h
        · exact Or.inl h
        · cases hrest : rest with
          | nil => rw [hrest] at hlt'; simp at hlt'
          | cons y ys =>
            rw [hrest] at h
            exact Or.inr (h.trans List.getLast?_cons_cons.symm)

theorem cleanInv_backtrack {rooted : Bool} {dotdot : Nat} {rout : List Char}
    (h : CleanInv rooted dotdot rout) (hlt : dotdot < rout.length) :
    CleanInv rooted dotdot (popSegRev dotdot rout) := by
  obtain ⟨h1, h2, h3, h4, h5, h6, h7⟩ := h
  obtain ⟨p1, p2, p3, p4, p5⟩ := popSegRev_inv rout dotdot hlt h2 h4
  refine ⟨p4, p2, p1, p3, h5, h6, ?_⟩
  intro hr
  rcases p5 with he | he
  · rw [he]; simp
  · rw [he]; exact h7 hr

theorem cleanInv_dotdot_append {rooted : Bool} {dotdot : Nat} {rout : List Char}
    (h : CleanInv rooted dotdot rout) (hge : ¬dotdot < rout.length)
    (hro : rooted = false) :
    CleanInv rooted
      ('.' :: '.' :: (if 0 < rout.length then '/' :: rout else rout)).length
      ('.' :: '.' :: (if 0 < rout.length then '/' :: rout else rout)) := by
  obtain ⟨h1, h2, h3, h4, h5, h6, h7⟩ := h
  by_cases hpos : 0 < rout.length
  · rw [if_pos hpos]
    have h2dd : 2 ≤ dotdot := by
      rcases h6 hro with h0 | hge2
      · omega
      · exact hge2
    have hhead : rout.head? = some '.' := by
      rcases h4 with h0 | h1' | ⟨_, hb⟩
      · omega
      · omega
      · have hz : rout.length - dotdot = 0 := by omega
        rw [hz, List.drop_zero] at hb
        exact hb
    refine ⟨?_, ?_, le_refl _, ?_, ?_, ?_, ?_⟩
    · intro hcontra; simp at hcontra
    · rw [noTwoSlash_cons_cons]
      refine ⟨by simp, ?_⟩
      rw [noTwoSlash_cons_cons]
      refine ⟨by simp, ?_⟩
      apply noTwoSlash_cons_slash h2
      rw [hhead]
      simp
    · refine Or.inr (Or.inr ⟨by simp, ?_⟩)
      have hz : ('.' :: '.' :: '/' :: rout).length -
          ('.' :: '.' :: '/' :: rout).length = 0 := by omega
      rw [hz, List.drop_zero, List.head?_cons]
    · intro hrt; rw [hrt] at hro; simp at hro
    · intro _
      refine Or.inr ?_
      simp only [List.length_cons]
      omega
    · intro _
      have hne : rout ≠ [] := by
        intro hx; rw [hx] at hpos; simp at hpos
      rw [show ('.' :: '.' :: '/' :: rout) = ['.', '.', '/'] ++ rout from rfl,
        getLast?_append_right _ hne]
      exact h7 hro
  · rw [if_neg hpos]
    have hnil : rout = [] := by
      cases rout with
      | nil => rfl
      | cons a b => exact absurd (by simp) hpos
    subst hnil
    refine ⟨?_, ?_, le_refl _, ?_, ?_, ?_, ?_⟩
    · intro hcontra; simp at hcontra
    · rw [noTwoSlash_cons_cons]
      exact ⟨by simp, trivial⟩
    · refine Or.inr (Or.inr ⟨by simp, ?_⟩)
      simp
    · intro hrt; rw [hrt] at hro; simp at hro
    · intro _
      refine Or.inr ?_
      simp
    · intro _
      simp

theorem cleanInv_seg_append {rooted : Bool} {dotdot : Nat} {rout : List Char}
    (h : CleanInv rooted dotdot rout) {seg : List Char} (hne : seg ≠ [])
    (hall : ∀ x ∈ seg, x ≠ '/') :
    CleanInv rooted dotdot (seg.reverse ++
      (if (rooted ∧ rout.length ≠ 1) ∨ (rooted = false ∧ rout.length ≠ 0)
       then '/' :: rout else rout)) := by
  obtain ⟨h1, h2, h3, h4, h5, h6, h7⟩ := h
  have hallrev : ∀ x ∈ seg.reverse, x ≠ '/' :=
    fun x hx => hall x (List.mem_reverse.mp hx)
  have hheadok : ∀ m : List Char, HeadOK (seg.reverse ++ m) := by
    intro m hcontra
    cases hsr : seg.reverse with
    | nil => exact absurd (List.reverse_eq_nil_iff.mp hsr) hne
    | cons a t =>
      rw [hsr, List.cons_append, List.head?_cons, Option.some_inj] at hcontra
      have ham : a ∈ seg.reverse := hsr ▸ List.mem_cons_self a t
      exact ((hallrev a ham) hcontra).elim
  by_cases hcond :
      (rooted ∧ rout.length ≠ 1) ∨ (rooted = false ∧ rout.length ≠ 0)
  · rw [if_pos hcond]
    have hrne : rout ≠ [] := by
      rcases hcond with ⟨hro, _⟩ | ⟨hro, hl⟩
      · have hd1 := h5 hro
        intro hx
        rw [hx, hd1] at h3
        simp at h3
      · intro hx
        rw [hx] at hl
        simp at hl
    have hslash : rout.head? ≠ some '/' := by
      intro hcontra
      have hre : rout = ['/'] := h1 hcontra
      rcases hcond with ⟨_, hl⟩ | ⟨hro, _⟩
      · rw [hre] at hl; simp at hl
      · refine h7 hro ?_
        rw [hre]
        rfl
    refine ⟨hheadok _, ?_, ?_, ?_, h5, h6, ?_⟩
    · exact noTwoSlash_append hallrev (noTwoSlash_cons_slash h2 hslash)
    · simp only [List.length_append, List.length_cons]
      omega
    · rw [List.append_cons]
      rcases h4 with h0 | h1' | ⟨hg, hb⟩
      · exact Or.inl h0
      · exact Or.inr (Or.inl h1')
      · refine Or.inr (Or.inr ⟨hg, ?_⟩)
        rw [drop_bottom_append _ _ _ h3]
        exact hb
    · intro hro
      rw [List.append_cons, getLast?_append_right _ hrne]
      exact h7 hro
  · rw [if_neg hcond]
    refine ⟨hheadok _, ?_, ?_, ?_, h5, h6, ?_⟩
    · exact noTwoSlash_append hallrev h2
    · simp only [List.length_append]
      omega
    · rcases h4 with h0 | h1' | ⟨hg, hb⟩
      · exact Or.inl h0
      · exact Or.inr (Or.inl h1')
      · refine Or.inr (Or.inr ⟨hg, ?_⟩)
        rw [drop_bottom_append _ _ _ h3]
        exact hb
    · intro hro
      have hl0 : rout = [] := by
        have hnb := (not_or.mp hcond).2
        by_contra hx
        exact hnb ⟨hro, fun hlen => hx (List.length_eq_zero.mp hlen)⟩
      rw [hl0, List.append_nil]
      intro hcontra
      rw [← List.head?_reverse, List.reverse_reverse] at hcontra
      cases hsg : seg with
      | nil => exact hne hsg
      | cons a t =>
        rw [hsg, List.head?_cons, Option.some_inj] at hcontra
        exact hall a (hsg ▸ List.mem_cons_self a t) hcontra

theorem cleanLoopF_inv (rooted : Bool) :
    ∀ (fuel : Nat) (remaining : List Char) (dotdot : Nat) (rout : List Char),
      CleanInv rooted dotdot rout →
      HeadOK (cleanLoopF rooted fuel remaining dotdot rout) := by
  intro fuel
  induction fuel with
  | zero =>
    intro remaining dotdot rout h
    rw [cleanLoopF]
    exact h.1
  | succ n ih =>
    intro remaining dotdot rout h
    cases remaining with
    | nil =>
      rw [cleanLoopF]
      exact h.1
    | cons c rest =>
      rw [cleanLoopF]
      by_cases hc : c = '/'
      · rw [if_pos hc]
        exact ih rest dotdot rout h
      · rw [if_neg hc]
        by_cases hdot : c = '.' ∧ (rest = [] ∨ rest.head? = some '/')
        · rw [if_pos hdot]
          exact ih rest dotdot rout h
        · rw [if_neg hdot]
          by_cases hdd : c = '.' ∧ rest.head? = some '.' ∧
              (rest.tail = [] ∨ rest.tail.head? = some '/')
          · rw [if_pos hdd]
            by_cases hlt : dotdot < rout.length
            · rw [if_pos hlt]
              exact ih rest.tail dotdot _ (cleanInv_backtrack h hlt)
            · rw [if_neg hlt]
              by_cases hro : rooted = false
              · rw [if_pos hro]
                exact ih rest.tail _ _ (cleanInv_dotdot_append h hlt hro)
              · rw [if_neg hro]
                exact ih rest.tail dotdot rout h
          · rw [if_neg hdd]
            refine ih _ dotdot _ (cleanInv_seg_append h (List.cons_ne_nil _ _) ?_)
            intro x hx
            rcases List.mem_cons.mp hx with hxc | hxt
            · rw [hxc]; exact hc
            · have := List.mem_takeWhile_imp hxt
              simpa using this

theorem cleanInv_init_rooted : CleanInv true 1 ['/'] := by
  refine ⟨fun _ => rfl, trivial, le_refl _, Or.inr (Or.inl rfl),
    fun _ => rfl, ?_, ?_⟩
  · intro h; simp at h
  · intro h; simp at h

theorem cleanInv_init_plain : CleanInv false 0 [] := by
  refine ⟨?_, trivial, le_refl _, Or.inl rfl, ?_, fun _ => Or.inl rfl, ?_⟩
  · intro h; simp at h
  · intro h; simp at h
  · intro _; simp

theorem strHasSuf_mk_rev_slash (l : List Char) :
    strHasSuf (String.mk l.reverse) "/" = true ↔ l.head? = some '/' := by
  have hdata : "/".data = ['/'] := rfl
  show List.isSuffixOf "/".data (String.mk l.reverse).data = true ↔ _
  rw [hdata]
  show List.isSuffixOf ['/'] l.reverse = true ↔ _
  rw [List.isSuffixOf]
  simp only [List.reverse_reverse, List.reverse_cons, List.reverse_nil,
    List.nil_append]
  cases l with
  | nil => decide
  | cons a t =>
    rw [List.isPrefixOf_iff_prefix, List.cons_prefix_cons]
    simp [eq_comm]

/-- Core structural fact about the Go path cleaner: a cleaned path ends in
the separator only when it is exactly the root path "/".  In particular the
trailing-slash (directory marker) test NewFileEntry performs after cleaning
can only fire on the absolute path "/", which the absolute-path check
rejects first. -/
theorem pathClean_trailing_slash (s : String)
    (h : strHasSuf (pathClean s) "/" = true) : pathClean s = "/" := by
  by_cases hs : s = ""
  · rw [hs] at h
    exact absurd h (by decide)
  · rw [pathClean, if_neg hs] at h ⊢
    by_cases hroot : s.data.head? = some '/'
    · rw [if_pos hroot] at h ⊢
      set rout := cleanLoopF true s.data.tail.length s.data.tail 1 ['/'] with hrt
      by_cases hnil : rout = []
      · rw [if_pos hnil] at h
        exact absurd h (by decide)
      · rw [if_neg hnil] at h ⊢
        have hhead : rout.head? = some '/' :=
          (strHasSuf_mk_rev_slash rout).mp h
        have hok : HeadOK rout :=
          cleanLoopF_inv true s.data.tail.length s.data.tail 1 ['/']
            cleanInv_init_rooted
        rw [hok hhead]
        rfl
    · rw [if_neg hroot] at h ⊢
      set rout := cleanLoopF false s.data.length s.data 0 [] with hrt
      by_cases hnil : rout = []
      · rw [if_pos hnil] at h
        exact absurd h (by decide)
      · rw [if_neg hnil] at h ⊢
        have hhead : rout.head? = some '/' :=
          (strHasSuf_mk_rev_slash rout).mp h
        have hok : HeadOK rout :=
          cleanLoopF_inv false s.data.length s.data 0 [] cleanInv_init_plain
        rw [hok hhead]
        rfl

/-- Sanity evaluations of the path.Clean embedding against the behaviour
documented for Go's path.Clean: multiple slashes collapse, "." elements
vanish, inner ".." elements erase the preceding segment, leading ".."
elements of a relative path survive, a rooted path never backtracks past
the root, trailing slashes are removed and the empty result is ".". -/
theorem pathClean_go_behaviour :
    pathClean "" = "." ∧ pathClean "/" = "/" ∧ pathClean "foo/" = "foo" ∧
    pathClean "a/./b" = "a/b" ∧ pathClean "a/../b" = "b" ∧
    pathClean "../a" = "../a" ∧ pathClean "a/.." = "." ∧
    pathClean "/a/../.." = "/" ∧ pathClean "a//b/" = "a/b" ∧
    pathClean "a/../../b" = "../b" ∧ pathClean "./" = "." ∧
    pathClean ".foo/bar" = ".foo/bar" ∧ pathClean "a.." = "a.." := by
  decide

/-- Sanity evaluations of the url parse model: scheme before the colon,
lowercased; the empty string parses with an empty scheme. -/
theorem urlParse_behaviour :
    urlParse "http://x/y" = .ok ⟨"http", "//x/y"⟩ ∧
    urlParse "" = .ok ⟨"", ""⟩ ∧
    urlParse "HTTPS://x" = .ok ⟨"https", "//x"⟩ ∧
    urlParse "://x" = .error "missing protocol scheme" := by
  decide

theorem eventsOf_append (fetch : GoURL → FetchResult) (l r : List FileEntry) :
    eventsOf fetch (l ++ r) = eventsOf fetch l ++ eventsOf fetch r := by
  induction l with
  | nil => simp [eventsOf]
  | cons e t ih => simp [eventsOf, ih]

theorem succCount_append (fetch : GoURL → FetchResult) (l r : List FileEntry) :
    succCount fetch (l ++ r) = succCount fetch l + succCount fetch r := by
  induction l with
  | nil => simp [succCount]
  | cons e t ih =>
    rw [List.cons_append, succCount, succCount, ih]
    omega

theorem streamLoop_spec (fetch : GoURL → FetchResult) :
    ∀ (entries : List FileEntry) (evs : List ZipEvent) (succ : Nat),
      streamLoop fetch entries evs succ =
        (evs ++ eventsOf fetch entries, succ + succCount fetch entries) := by
  intro entries
  induction entries with
  | nil =>
    intro evs succ
    simp [streamLoop, eventsOf, succCount]
  | cons e rest ih =>
    intro evs succ
    rw [streamLoop]
    cases hu : e.url with
    | none =>
      simp [ih, eventsOf, succCount, perEntry, entrySucc, hu]
      omega
    | some u =>
      cases hf : fetch u with
      | transportError =>
        simp [ih, eventsOf, succCount, perEntry, entrySucc, hu, hf]
      | response status body =>
        by_cases hst : status = 200
        · subst hst
          simp [ih, eventsOf, succCount, perEntry, entrySucc, hu, hf]
          omega
        · simp [ih, eventsOf, succCount, perEntry, entrySucc, hu, hf, hst]

theorem StreamAllFiles_spec (fetch : GoURL → FetchResult)
    (entries : List FileEntry) :
    StreamAllFiles fetch entries =
      (eventsOf fetch entries ++ [.finalize],
       if succCount fetch entries = 0 then
         .error "empty file - all files and folders failed"
       else .ok ()) := by
  rw [StreamAllFiles, streamLoop_spec]
  simp

theorem calcLoop_spec (sizeMap : String → Int) :
    ∀ (files : List FileEntry) (lh fd cd : Int),
      calcLoop sizeMap files lh fd cd =
        (lh + specLocalHeaderBytes files,
         fd + specFileDataBytes sizeMap files,
         cd + specCentralDirBytes files) := by
  intro files
  induction files with
  | nil =>
    intro lh fd cd
    simp [calcLoop, specLocalHeaderBytes, specFileDataBytes,
      specCentralDirBytes]
  | cons f rest ih =>
    intro lh fd cd
    rw [calcLoop, ih]
    simp only [specLocalHeaderBytes, specFileDataBytes, specCentralDirBytes,
      Prod.mk.injEq]
    refine ⟨by ring, by ring, by ring⟩

theorem buildFiles_spec (urlPre : String) :
    ∀ items : List JsonZipEntry,
      buildFiles urlPre items = items.filterMap (entryMember urlPre) := by
  intro items
  induction items with
  | nil => rfl
  | cons item rest ih =>
    rw [buildFiles, List.filterMap_cons]
    by_cases hskip : item.url = "" ∧ (strHasSuf item.zipPath "/") = false
    · rw [if_pos hskip]
      have hm : entryMember urlPre item = none := by
        rw [entryMember, if_pos hskip]
      rw [hm, ih]
    · rw [if_neg hskip]
      have hm : entryMember urlPre item =
          (NewFileEntry urlPre item.url item.zipPath).toOption := by
        rw [entryMember, if_neg hskip]
      cases hfe : NewFileEntry urlPre item.url item.zipPath with
      | ok fe =>
        rw [hm, hfe]
        show fe :: buildFiles urlPre rest = fe :: rest.filterMap (entryMember urlPre)
        rw [ih]
      | error e =>
        rw [hm, hfe]
        show buildFiles urlPre rest = rest.filterMap (entryMember urlPre)
        rw [ih]

theorem length_filterMap_eq_countP (f : JsonZipEntry → Option FileEntry) :
    ∀ items : List JsonZipEntry,
      (items.filterMap f).length =
        items.countP (fun it => (f it).isSome) := by
  intro items
  induction items with
  | nil => rfl
  | cons item rest ih =>
    rw [List.filterMap_cons, List.countP_cons]
    cases hf : f item with
    | none => simp [hf, ih]
    | some v => simp [hf, ih]

theorem escapeFilename_eq_spec (raw : String) :
    escapeFilename raw = String.mk (raw.data.filter fun c =>
      decide (32 ≤ c.toNat ∧ c.toNat ≤ 126 ∧ c ≠ '"')) := by
  rw [escapeFilename]
  congr 1
  apply List.filter_congr
  intro x _
  simp only [decide_eq_decide]
  constructor
  · rintro ⟨h1, h2, h3⟩
    exact ⟨by omega, by omega, h3⟩
  · rintro ⟨h1, h2, h3⟩
    exact ⟨by omega, by omega, h3⟩

/-- Claim C1: the spec states that every trailing-slash zipPath yields a
successful URL-less directory-marker Member; the code cleans the path first
and path.Clean strips the trailing slash, so the directory-marker branch
never fires.  Construction of ("foo/", empty URL) fails with the scheme
error, no construction of a "foo/" entry can ever produce a URL-less
Member, and the directory-marker manifest entry ("", "foo/") that the
descriptor parser forwards is silently dropped. -/
theorem claim1_dir_marker_never_constructed :
    pathClean "foo/" = "foo" ∧
    NewFileEntry "" "" "foo/" = .error "url must be a http url" ∧
    (∀ urlPre urlString : String, ∀ m : FileEntry,
      NewFileEntry urlPre urlString "foo/" = .ok m → m.url ≠ none) ∧
    UnmarshalJsonZipDescriptor "" (some ⟨[⟨"", "foo/"⟩], ""⟩) = .ok ⟨"", []⟩ := by
  refine ⟨by decide, by decide, ?_, by decide⟩
  intro urlPre urlString m hm
  rw [NewFileEntry] at hm
  rw [if_neg (by decide), if_neg (by decide)] at hm
  split at hm
  · cases hm
  · split at hm
    · cases hm
    · split at hm
      · cases hm
      · cases hm
        simp

/-- Claim C2: the spec requires the size estimate to equal, byte for byte,
what the stored-method stream writes for the same list and sizes.  For the
single member named "a" with declared size 0 and a successful fetch of
exactly 0 bytes, calculateZipSize answers 100 = (30+1) + 0 + (46+1) + 22,
but the archive/zip writer that StreamAllFiles drives emits 134 bytes: it
adds a 9-byte extended-timestamp extra field to both the local header and
the central directory record (Modified is set to time.Now()) and a 16-byte
data descriptor after the body of every streamed file entry. -/
theorem claim2_estimate_diverges_from_stream :
    calculateZipSize [⟨some ⟨"http", "//x"⟩, "a"⟩] (fun _ => 0) =
      (100, 31, 0, 47) ∧
    storedStreamSize [⟨some ⟨"http", "//x"⟩, "a"⟩] (fun _ => 0) = 134 ∧
    (calculateZipSize [⟨some ⟨"http", "//x"⟩, "a"⟩] (fun _ => 0)).1 ≠
      storedStreamSize [⟨some ⟨"http", "//x"⟩, "a"⟩] (fun _ => 0) := by
  refine ⟨by decide, by decide, by decide⟩

/-- Claim C3, counterexample: lexical cleaning preserves leading ".."
segments, so a Member whose path points outside the archive root is
constructed successfully: with an empty allow-list prefix,
NewFileEntry("http://x/y", "../a") succeeds and stores the escaping path
"../a". -/
theorem claim3_counterexample :
    NewFileEntry "" "http://x/y" "../a" =
      .ok ⟨some ⟨"http", "//x/y"⟩, "../a"⟩ ∧
    strHasPre "../a" "../" = true := by
  refine ⟨by decide, by decide⟩

/-- Claim C3, amended: Member construction stores exactly the lexically
cleaned zipPath (collapsing "." and resolving inner ".." segments) and
rejects every path whose cleaned form is absolute, so no constructed
Member has an absolute path; leading ".." segments survive cleaning,
however, so a relative path pointing outside the archive root is not
rejected. -/
theorem claim3_clean_normalization (urlPre urlString zipPath : String)
    (m : FileEntry) (h : NewFileEntry urlPre urlString zipPath = .ok m) :
    m.zipPath = pathClean zipPath ∧ pathIsAbs m.zipPath = false := by
  rw [NewFileEntry] at h
  by_cases habs : pathIsAbs (pathClean zipPath) = true
  · rw [if_pos habs] at h
    cases h
  · have habs' : pathIsAbs (pathClean zipPath) = false := by
      cases hb : pathIsAbs (pathClean zipPath)
      · rfl
      · exact absurd hb habs
    rw [if_neg habs] at h
    by_cases hsuf : strHasSuf (pathClean zipPath) "/" = true
    · rw [if_pos hsuf] at h
      cases h
      exact ⟨rfl, habs'⟩
    · rw [if_neg hsuf] at h
      split at h
      · cases h
      · split at h
        · cases h
        · split at h
          · cases h
          · cases h
            exact ⟨rfl, habs'⟩

/-- Witness for the amended claim C3 at a concrete input: the member built
from zipPath "a/./b" stores the cleaned path "a/b", which is the
path.Clean of the input and is not absolute. -/
theorem claim3_witness :
    NewFileEntry "" "http://x/y" "a/./b" =
      .ok ⟨some ⟨"http", "//x/y"⟩, "a/b"⟩ ∧
    (⟨some ⟨"http", "//x/y"⟩, "a/b"⟩ : FileEntry).zipPath = pathClean "a/./b" ∧
    pathIsAbs (⟨some ⟨"http", "//x/y"⟩, "a/b"⟩ : FileEntry).zipPath = false := by
  refine ⟨by decide, ?_, ?_⟩
  · exact (claim3_clean_normalization "" "http://x/y" "a/./b" _ (by decide)).1
  · exact (claim3_clean_normalization "" "http://x/y" "a/./b" _ (by decide)).2

/-- Claim C4: whenever the URL string does not start with the configured
allow-list prefix, NewFileEntry fails for every zipPath, regardless of
whether the URL's scheme is valid: the directory-marker branch is
unreachable (a cleaned path ends in "/" only when it is the absolute "/",
rejected earlier), and on the file path every arm before the prefix check
is itself an error arm. -/
theorem claim4_allowlist_rejects (urlPre urlString zipPath : String)
    (h : strHasPre urlString urlPre = false) :
    (NewFileEntry urlPre urlString zipPath).isOk = false := by
  rw [NewFileEntry]
  by_cases habs : pathIsAbs (pathClean zipPath) = true
  · rw [if_pos habs]
    rfl
  · have habs' : pathIsAbs (pathClean zipPath) = false := by
      cases hb : pathIsAbs (pathClean zipPath)
      · rfl
      · exact absurd hb habs
    have hsuf : strHasSuf (pathClean zipPath) "/" = false := by
      cases hb : strHasSuf (pathClean zipPath) "/"
      · rfl
      · have hroot := pathClean_trailing_slash zipPath hb
        rw [hroot] at habs'
        exact absurd habs' (by decide)
    rw [if_neg habs, if_neg (by simp [hsuf])]
    split
    · rfl
    · split
      · rfl
      · rfl

/-- Witness for claim C4 at a concrete input: with allow-list prefix
"https://allowed.example/", the syntactically valid http URL
"http://evil.example/x" is rejected. -/
theorem claim4_witness :
    (NewFileEntry "https://allowed.example/" "http://evil.example/x" "a").isOk
      = false :=
  claim4_allowlist_rejects "https://allowed.example/" "http://evil.example/x"
    "a" (by decide)

/-- Claim C5: the estimator's breakdown is exactly the spec's sums — per
member 30 plus the filename byte length of local header, the carried size
of file data, 46 plus the filename byte length of central directory, plus
a single final 22 — and for a single member the total is
(30+L) + S + ((46+L) + 22).  Purity and idempotence hold by construction:
calculateZipSize is a total function of its two arguments. -/
theorem claim5_estimator_formula :
    (∀ (files : List FileEntry) (sizeMap : String → Int),
      calculateZipSize files sizeMap =
        (specLocalHeaderBytes files + specFileDataBytes sizeMap files +
           specCentralDirBytes files + 22,
         specLocalHeaderBytes files, specFileDataBytes sizeMap files,
         specCentralDirBytes files)) ∧
    (∀ (u : Option GoURL) (zp : String) (sizeMap : String → Int),
      (calculateZipSize [⟨u, zp⟩] sizeMap).1 =
        (30 + (zp.utf8ByteSize : Int)) + sizeMap zp +
          ((46 + (zp.utf8ByteSize : Int)) + 22)) := by
  have hmain : ∀ (files : List FileEntry) (sizeMap : String → Int),
      calculateZipSize files sizeMap =
        (specLocalHeaderBytes files + specFileDataBytes sizeMap files +
           specCentralDirBytes files + 22,
         specLocalHeaderBytes files, specFileDataBytes sizeMap files,
         specCentralDirBytes files) := by
    intro files sizeMap
    rw [calculateZipSize, calcLoop_spec]
    simp
  refine ⟨hmain, ?_⟩
  intro u zp sizeMap
  rw [hmain]
  simp only [specLocalHeaderBytes, specFileDataBytes, specCentralDirBytes]
  ring

/-- Claim C6, counterexample: a fetch that succeeds with the 2xx status 201
is nevertheless skipped — the member contributes no local header and no
body, the archive is finalized empty and the all-failed error is reported —
because the code compares against http.StatusOK (exactly 200), not against
the 2xx class. -/
theorem claim6_counterexample :
    (fun _ : GoURL => FetchResult.response 201 []) ⟨"http", "//x"⟩ =
      FetchResult.response 201 [] ∧
    (200 ≤ 201 ∧ 201 < 300) ∧
    StreamAllFiles (fun _ => FetchResult.response 201 [])
      [⟨some ⟨"http", "//x"⟩, "a"⟩] =
      ([ZipEvent.finalize],
       .error "empty file - all files and folders failed") := by
  refine ⟨rfl, by decide, by decide⟩

/-- Claim C6, amended: during streaming, a file member whose fetch fails at
the transport level or returns any status other than exactly 200 is
skipped and the stream behaves as if the member were absent (processing
continues, no stream-level error from the skip); a member whose fetch
returns status 200 contributes a local file header immediately followed by
its body bytes, in list order. -/
theorem claim6_skip_or_write (fetch : GoURL → FetchResult)
    (l r : List FileEntry) (e : FileEntry) (u : GoURL)
    (hu : e.url = some u) :
    ((fetch u = .transportError ∨
        (∃ st b, fetch u = .response st b ∧ st ≠ 200)) →
      StreamAllFiles fetch (l ++ e :: r) = StreamAllFiles fetch (l ++ r)) ∧
    (∀ b, fetch u = .response 200 b →
      (StreamAllFiles fetch (l ++ e :: r)).1 =
        eventsOf fetch l ++
          ([ZipEvent.fileHeader e.zipPath, ZipEvent.fileBody e.zipPath b] ++
            (eventsOf fetch r ++ [ZipEvent.finalize]))) := by
  constructor
  · intro hskip
    have hpe : perEntry fetch e = [] := by
      rcases hskip with hf | ⟨st, b, hf, hst⟩
      · simp [perEntry, hu, hf]
      · simp [perEntry, hu, hf, hst]
    have hes : entrySucc fetch e = false := by
      rcases hskip with hf | ⟨st, b, hf, hst⟩
      · simp [entrySucc, hu, hf]
      · simp [entrySucc, hu, hf, hst]
    rw [StreamAllFiles_spec, StreamAllFiles_spec]
    rw [eventsOf_append, eventsOf_append, succCount_append, succCount_append]
    rw [show eventsOf fetch (e :: r) = perEntry fetch e ++ eventsOf fetch r
        from rfl,
      show succCount fetch (e :: r) =
        (if entrySucc fetch e then 1 else 0) + succCount fetch r from rfl,
      hpe, hes]
    simp
  · intro b hf
    have hpe : perEntry fetch e =
        [ZipEvent.fileHeader e.zipPath, ZipEvent.fileBody e.zipPath b] := by
      simp [perEntry, hu, hf]
    rw [StreamAllFiles_spec]
    simp only [eventsOf_append]
    rw [show eventsOf fetch (e :: r) = perEntry fetch e ++ eventsOf fetch r
        from rfl, hpe]
    simp

/-- Witness for the amended claim C6 at a concrete input: a single member
whose fetch fails at transport level leaves the stream identical to the
stream over the empty list. -/
theorem claim6_witness :
    StreamAllFiles (fun _ => FetchResult.transportError)
      ([] ++ ⟨some ⟨"http", "//x"⟩, "a"⟩ :: []) =
      StreamAllFiles (fun _ => FetchResult.transportError) ([] ++ []) :=
  (claim6_skip_or_write (fun _ => FetchResult.transportError) [] []
    ⟨some ⟨"http", "//x"⟩, "a"⟩ ⟨"http", "//x"⟩ rfl).1 (Or.inl rfl)

/-- Claim C7: StreamAllFiles returns the AllMembersFailed error exactly
when its success counter is zero, i.e. when every member was skipped (with
the zip writer modelled as an infallible pure sink, the only error source
left in StreamAllFiles); and the error decision is taken only after every
member has contributed its events and the finalize (writer close) event has
been appended. -/
theorem claim7_all_failed_iff (fetch : GoURL → FetchResult)
    (entries : List FileEntry) :
    ((StreamAllFiles fetch entries).2 =
        .error "empty file - all files and folders failed" ↔
      succCount fetch entries = 0) ∧
    (StreamAllFiles fetch entries).1 =
      eventsOf fetch entries ++ [ZipEvent.finalize] := by
  rw [StreamAllFiles_spec]
  constructor
  · by_cases h : succCount fetch entries = 0
    · simp [h]
    · simp [h]
  · rfl

/-- Claim C8, counterexample: a manifest whose single entry is valid (its
construction succeeds) yields a Files() list whose member carries the
cleaned path "a/b", not the input path "a/./b", so Files() is not equal in
content to the input list; and a directory-marker entry ("", "d/"), valid
per the spec, is silently dropped entirely. -/
theorem claim8_counterexample :
    UnmarshalJsonZipDescriptor "" (some ⟨[⟨"http://x/y", "a/./b"⟩], "n"⟩) =
      .ok ⟨"n", [⟨some ⟨"http", "//x/y"⟩, "a/b"⟩]⟩ ∧
    ("a/b" : String) ≠ "a/./b" ∧
    UnmarshalJsonZipDescriptor "" (some ⟨[⟨"", "d/"⟩], "n"⟩) =
      .ok ⟨"n", []⟩ := by
  refine ⟨by decide, by decide, by decide⟩

/-- Claim C8, amended: descriptor parsing is best-effort — a top-level
JSON failure is a hard parse error, while each entry is pre-skipped (empty
URL and no trailing slash) or dropped when NewFileEntry rejects it; the
surviving members appear in input order, one per entry whose construction
succeeds (each carrying the parsed URL and the cleaned zipPath), so a
manifest with N such constructible entries and M others yields exactly N
members. -/
theorem claim8_parse_best_effort :
    (∀ urlPre : String,
      UnmarshalJsonZipDescriptor urlPre none = .error "json unmarshal error") ∧
    (∀ (urlPre : String) (payload : JsonZipPayload),
      UnmarshalJsonZipDescriptor urlPre (some payload) =
        .ok ⟨payload.suggestedFilename,
             payload.files.filterMap (entryMember urlPre)⟩) ∧
    (∀ (urlPre : String) (payload : JsonZipPayload),
      (payload.files.filterMap (entryMember urlPre)).length =
        payload.files.countP (fun it => (entryMember urlPre it).isSome)) := by
  refine ⟨fun _ => rfl, ?_, ?_⟩
  · intro urlPre payload
    rw [UnmarshalJsonZipDescriptor, buildFiles_spec]
  · intro urlPre payload
    exact length_filterMap_eq_countP _ _

/-- Claim C9, counterexample: on the input evil".zip the filter only
removes the double quote, leaving "evil.zip", which already ends in ".zip"
and is returned unchanged — not the "evilzip.zip" the spec's worked
example states. -/
theorem claim9_counterexample :
    EscapedSuggestedFilename ⟨"evil\".zip", []⟩ = "evil.zip" ∧
    ("evil.zip" : String) ≠ "evilzip.zip" := by
  refine ⟨by decide, by decide⟩

/-- Claim C9, amended: EscapedSuggestedFilename filters the raw name to
the characters with codepoints 32-126 excluding the double quote, appends
".zip" unless already present, and returns "archive.zip" when the filtered
string is empty or exactly ".zip" — equal to the sanitization the spec
describes on every input; the worked examples hold with the first one
corrected to evil".zip ↦ evil.zip. -/
theorem claim9_sanitize :
    (∀ zd : ZipDescriptor,
      EscapedSuggestedFilename zd =
        specEscapedFilename zd.suggestedFilenameRaw) ∧
    EscapedSuggestedFilename ⟨"evil\".zip", []⟩ = "evil.zip" ∧
    EscapedSuggestedFilename ⟨"", []⟩ = "archive.zip" ∧
    EscapedSuggestedFilename ⟨"report", []⟩ = "report.zip" ∧
    EscapedSuggestedFilename ⟨"already.zip", []⟩ = "already.zip" ∧
    EscapedSuggestedFilename ⟨".zip", []⟩ = "archive.zip" := by
  refine ⟨?_, by decide, by decide, by decide, by decide, by decide⟩
  intro zd
  rw [EscapedSuggestedFilename, specEscapedFilename, ← escapeFilename_eq_spec]
  by_cases h : escapeFilename zd.suggestedFilenameRaw = "" ∨
      escapeFilename zd.suggestedFilenameRaw = ".zip"
  · rw [if_pos h, if_neg (by tauto)]
  · rw [if_neg h, if_pos (by tauto)]

/-- Claim C10: with the allow-list prefix empty (ZS_URL_PREFIX unset or
empty — os.Getenv returns "" in both cases), the prefix check accepts every
URL string, so any URL that parses with scheme http or https yields a
successful file Member for every acceptable zipPath: the guard rejects
nothing in the default configuration. -/
theorem claim10_empty_allowlist_accepts (urlString zipPath : String)
    (u : GoURL) (hp : urlParse urlString = .ok u)
    (hs : u.scheme = "http" ∨ u.scheme = "https")
    (habs : pathIsAbs (pathClean zipPath) = false) :
    NewFileEntry "" urlString zipPath = .ok ⟨some u, pathClean zipPath⟩ := by
  have hsuf : strHasSuf (pathClean zipPath) "/" = false := by
    cases hb : strHasSuf (pathClean zipPath) "/"
    · rfl
    · have hroot := pathClean_trailing_slash zipPath hb
      rw [hroot] at habs
      exact absurd habs (by decide)
  have hsch : ¬(u.scheme ≠ "http" ∧ u.scheme ≠ "https") := by
    rcases hs with h | h
    · intro hx; exact hx.1 h
    · intro hx; exact hx.2 h
  have hpre : strHasPre urlString "" = true :=
    List.isPrefixOf_iff_prefix.mpr List.nil_prefix
  rw [NewFileEntry, if_neg (by simp [habs]), if_neg (by simp [hsuf])]
  split
  · rename_i e heq
    rw [hp] at heq
    cases heq
  · rename_i u' heq
    rw [hp] at heq
    injection heq with heq'
    subst heq'
    rw [if_neg hsch, if_neg (by simp [hpre])]

/-- Witness for claim C10 at a concrete input: with an empty prefix the
URL "http://example.com/f" and path "d/f.txt" construct successfully. -/
theorem claim10_witness :
    NewFileEntry "" "http://example.com/f" "d/f.txt" =
      .ok ⟨some ⟨"http", "//example.com/f"⟩, "d/f.txt"⟩ := by
  have h := claim10_empty_allowlist_accepts "http://example.com/f" "d/f.txt"
    ⟨"http", "//example.com/f"⟩ (by decide) (Or.inl rfl) (by decide)
  rw [h]
  decide

end GoZipStreamer
